import Mathlib

/-!
# Ticket_booking — shallow embedding of `src/app.py`

The repository is a Flask app over MongoDB.  The analytics-relevant logic is
embedded here as pure Lean functions:

* the Mongo collection of bookings is modelled as a `List Booking` in insertion
  order (Mongo's natural order for this insert-only workload);
* `datetime` timestamps are modelled as natural numbers (an absolute time in
  seconds); truncation of a timestamp to its hour (`strftime('%Y-%m-%d %H:00')`)
  becomes division by 3600, and the lexicographic order on the format-stable
  hour strings coincides with the numeric order on the truncated values;
* Python's `sorted` / `list.sort` with `reverse=True` is a stable descending
  sort; it is embedded as a stable insertion sort (`sortDescBy`), which agrees
  with every stable sort;
* Python's `list(set(...))` deduplicates; its iteration order is hash-dependent,
  so it is modelled as first-occurrence-order deduplication (`firstDedup`) —
  only set-level facts are proved about those fields;
* `round(x, 2)` on a float is modelled as round-half-to-even on exact rationals
  (`pyRound2`); the binary floating-point representation is abstracted away;
* the MD5-derived display digests (`fingerprint_hash`, `fingerprint_id`) are
  display-only truncated hashes never used by the logic, and are omitted;
* `dict` / `Counter` iteration order is insertion order, i.e. first-occurrence
  order of the keys.
-/

/-- One stored booking document (`booking` dict built in `book_ticket`,
persisted shape minus the display-only `fingerprint_hash`). -/
structure Booking where
  name : String
  source : String
  destination : String
  fingerprint : String
  timestamp : Nat
  ip : String
deriving DecidableEq, Repr

/-- The JSON payload of a `/book` request: each required field either absent
(`none`) or present with a string value (`some`). -/
structure Payload where
  name : Option String
  source : Option String
  destination : Option String
  fingerprint : Option String
deriving DecidableEq, Repr

/-- Failure modes of `book_ticket`.  The 400 "Missing required fields"
response is the validation error. -/
inductive BookError where
  | validationError
deriving DecidableEq, Repr

/-- The success response of `book_ticket` (the fields the logic computes). -/
structure BookResponse where
  booking_count : Nat
  is_suspicious : Bool
deriving DecidableEq, Repr

/-- `book_ticket` (src/app.py:24-60): validate that every required field is a
key of the payload, insert one booking document, re-count all documents with
the same fingerprint, flag suspicious when that count exceeds 3.  Returns the
post-operation store together with the outcome. -/
def book_ticket (store : List Booking) (p : Payload) (now : Nat) (addr : String) :
    List Booking × Except BookError BookResponse :=
  match p.name, p.source, p.destination, p.fingerprint with
  | some nm, some src, some dst, some fp =>
      let b : Booking := ⟨nm, src, dst, fp, now, addr⟩
      let store' := store ++ [b]
      let cnt := (store'.filter (fun e => decide (e.fingerprint = fp))).length
      (store', Except.ok ⟨cnt, decide (cnt > 3)⟩)
  | _, _, _, _ => (store, Except.error BookError.validationError)

/-- Worker of `firstDedup`: drop the elements already seen, keep the first
occurrence of each new element. -/
def firstDedupAux {α : Type} [DecidableEq α] (seen : List α) : List α → List α
  | [] => []
  | x :: xs =>
      if x ∈ seen then firstDedupAux seen xs
      else x :: firstDedupAux (x :: seen) xs

/-- First-occurrence-order deduplication: the iteration order of a Python
`dict` / `Counter` built by scanning a list. -/
def firstDedup {α : Type} [DecidableEq α] (l : List α) : List α :=
  firstDedupAux [] l

/-- Number of stored bookings carrying fingerprint `fp`
(`fingerprint_counts[fp]`, equivalently `count_documents({'fingerprint': fp})`). -/
def fpCount (l : List Booking) (fp : String) : Nat :=
  (l.filter (fun b => decide (b.fingerprint = fp))).length

/-- The `"source → destination"` route string. -/
def routeStr (b : Booking) : String := b.source ++ " → " ++ b.destination

/-- Stable insertion step of the descending-by-key sort: `e` is placed before
the first element whose key is not greater than `e`'s. -/
def insertDesc {α : Type} (key : α → Nat) (e : α) : List α → List α
  | [] => [e]
  | x :: xs => if key e < key x then x :: insertDesc key e xs else e :: x :: xs

/-- Stable descending sort by a natural-number key: the semantics of Python's
stable `sorted(..., key=..., reverse=True)`. -/
def sortDescBy {α : Type} (key : α → Nat) : List α → List α
  | [] => []
  | x :: xs => insertDesc key x (sortDescBy key xs)

/-- Stable insertion step of the ascending-by-key sort. -/
def insertAsc {α : Type} (key : α → Nat) (e : α) : List α → List α
  | [] => [e]
  | x :: xs => if key x < key e then x :: insertAsc key e xs else e :: x :: xs

/-- Stable ascending sort by a natural-number key: the semantics of Python's
stable `sorted(..., key=...)`. -/
def sortAscBy {α : Type} (key : α → Nat) : List α → List α
  | [] => []
  | x :: xs => insertAsc key x (sortAscBy key xs)

/-- `max(...)` over a list of timestamps; the default `0` is never reached
because the code only takes the max of a non-empty group. -/
def maxTs (l : List Nat) : Nat := l.foldl max 0

/-- One entry of a group's `bookings` history as serialized by
`get_analytics` (src/app.py:107-112). -/
structure HistEntry where
  name : String
  route : String
  timestamp : Nat
  ip : String
deriving DecidableEq, Repr

/-- Projection of a stored booking to its history entry. -/
def toHist (b : Booking) : HistEntry :=
  ⟨b.name, routeStr b, b.timestamp, b.ip⟩

/-- One element of `fingerprint_details` (minus the display-only MD5
`fingerprint_id`). -/
structure Detail where
  full_fingerprint : String
  booking_count : Nat
  is_suspicious : Bool
  names_used : List String
  routes : List String
  last_booking : Nat
  bookings : List HistEntry
deriving DecidableEq, Repr

/-- The group of all stored bookings sharing fingerprint `fp`
(`fp_bookings`, src/app.py:93). -/
def fpBookings (all : List Booking) (fp : String) : List Booking :=
  all.filter (fun b => decide (b.fingerprint = fp))

/-- Build the detail record of one fingerprint (src/app.py:92-113). -/
def mkDetail (all : List Booking) (fp : String) : Detail :=
  let fpB := fpBookings all fp
  { full_fingerprint := fp
    booking_count := fpCount all fp
    is_suspicious := decide (fpCount all fp > 3)
    names_used := firstDedup (fpB.map (fun b => b.name))
    routes := firstDedup (fpB.map routeStr)
    last_booking := maxTs (fpB.map (fun b => b.timestamp))
    bookings := (sortDescBy (fun b => b.timestamp) fpB).map toHist }

/-- One timeline point: an hour bucket (timestamp divided by 3600) and its
event count. -/
structure TimelinePoint where
  time : Nat
  count : Nat
deriving DecidableEq, Repr

/-- Hour bucket of a booking: its timestamp truncated to the hour. -/
def hourOf (b : Booking) : Nat := b.timestamp / 3600

/-- The per-hour buckets of `timeline_data` (src/app.py:119-122), in first
occurrence order of the hours (the dict's iteration order), each with the
count of the events falling into it. -/
def tlPts (all : List Booking) : List TimelinePoint :=
  (firstDedup (all.map hourOf)).map (fun h =>
    TimelinePoint.mk h (all.filter (fun b => decide (hourOf b = h))).length)

/-- The buckets sorted chronologically ascending (src/app.py:124-125). -/
def tlSorted (all : List Booking) : List TimelinePoint :=
  sortAscBy (fun p => p.time) (tlPts all)

/-- The hourly timeline (src/app.py:119-125,137): count events per distinct
hour, sort buckets chronologically ascending, keep the last 24
(`timeline[-24:]`). -/
def timelineOf (all : List Booking) : List TimelinePoint :=
  (tlSorted all).drop ((tlSorted all).length - 24)

/-- Round a rational to the nearest integer, ties to even: the semantics of
Python 3's `round` on exact values. -/
def pyRoundInt (x : ℚ) : ℤ :=
  if x - ⌊x⌋ = (1 : ℚ)/2 then (if ⌊x⌋ % 2 = 0 then ⌊x⌋ else ⌊x⌋ + 1)
  else round x

/-- `round(x, 2)`: round to two decimal places, ties to even. -/
def pyRound2 (x : ℚ) : ℚ := (pyRoundInt (x * 100) : ℚ) / 100

/-- The `summary` object of the analytics response (src/app.py:129-135). -/
structure Summary where
  total_bookings : Nat
  unique_fingerprints : Nat
  suspicious_users : Nat
  suspicious_bookings : Nat
  fraud_rate : ℚ
deriving DecidableEq, Repr

/-- The full analytics response (src/app.py:127-138). -/
structure AnalyticsReport where
  summary : Summary
  fingerprint_details : List Detail
  timeline : List TimelinePoint
deriving DecidableEq, Repr

/-- The distinct fingerprints of the store in first-occurrence order: the
iteration order of `fingerprint_counts` (a `Counter` scan of `all_bookings`). -/
def fpKeys (all : List Booking) : List String :=
  firstDedup (all.map (fun b => b.fingerprint))

/-- `get_analytics` (src/app.py:70-138) as the pure aggregation
`computeAnalytics` of the spec: group by fingerprint, build the detail list in
discovery order, stably sort it by count descending, compute the global
summary and the hourly timeline. -/
def computeAnalytics (all : List Booking) : AnalyticsReport :=
  let fps := fpKeys all
  let suspFps := fps.filter (fun fp => decide (fpCount all fp > 3))
  let total := all.length
  let suspicious := (suspFps.map (fpCount all)).sum
  { summary :=
      { total_bookings := total
        unique_fingerprints := fps.length
        suspicious_users := suspFps.length
        suspicious_bookings := suspicious
        fraud_rate :=
          if 0 < total then pyRound2 ((suspicious : ℚ) / (total : ℚ) * 100)
          else 0 }
    fingerprint_details := sortDescBy (fun d => d.booking_count) (fps.map (mkDetail all))
    timeline := timelineOf all }

/-- `clear_data` (src/app.py:144-147): `delete_many({})` empties the store. -/
def clear_data (_store : List Booking) : List Booking := []

/-! ## Concrete demo data (used to instantiate the theorems) -/

/-- A demo booking. -/
def b1 : Booking := ⟨"a", "s", "d", "f", 10, "i1"⟩

/-- A demo booking sharing `b1`'s fingerprint and timestamp. -/
def b2 : Booking := ⟨"b", "t", "e", "f", 10, "i2"⟩

/-- A demo booking in a later hour bucket. -/
def b3 : Booking := ⟨"c", "u", "v", "f", 7200, "i3"⟩

/-- A fourth demo booking with fingerprint `"f"`, making it suspicious. -/
def b4 : Booking := ⟨"a", "s", "d", "f", 20, "i4"⟩

/-- A demo booking with a second fingerprint. -/
def b5 : Booking := ⟨"z", "w", "x", "g", 30, "i5"⟩

/-- A demo store: four bookings with fingerprint `"f"`, one with `"g"`. -/
def demoStore : List Booking := [b1, b2, b3, b4, b5]

/-! ## Helper lemmas: `firstDedup` -/

theorem mem_firstDedupAux {α : Type} [DecidableEq α] {l seen : List α} {a : α} :
    a ∈ firstDedupAux seen l ↔ (a ∈ l ∧ a ∉ seen) := by
  induction l generalizing seen with
  | nil => simp [firstDedupAux]
  | cons x xs ih =>
    rw [firstDedupAux]
    by_cases hx : x ∈ seen
    · rw [if_pos hx, ih]
      constructor
      · rintro ⟨h1, h2⟩
        exact ⟨List.mem_cons_of_mem x h1, h2⟩
      · rintro ⟨h1, h2⟩
        rcases List.mem_cons.1 h1 with rfl | h1
        · exact absurd hx h2
        · exact ⟨h1, h2⟩
    · rw [if_neg hx]
      simp only [List.mem_cons, ih, List.mem_cons, not_or]
      constructor
      · rintro (rfl | ⟨h1, h2, h3⟩)
        · exact ⟨Or.inl rfl, hx⟩
        · exact ⟨Or.inr h1, h3⟩
      · rintro ⟨rfl | h1, h2⟩
        · exact Or.inl rfl
        · by_cases ha : a = x
          · exact Or.inl ha
          · exact Or.inr ⟨h1, ha, h2⟩

theorem mem_firstDedup {α : Type} [DecidableEq α] {l : List α} {a : α} :
    a ∈ firstDedup l ↔ a ∈ l := by
  rw [firstDedup]
  simpa using @mem_firstDedupAux α _ l [] a

theorem nodup_firstDedupAux {α : Type} [DecidableEq α] (l seen : List α) :
    (firstDedupAux seen l).Nodup := by
  induction l generalizing seen with
  | nil => exact List.Pairwise.nil
  | cons x xs ih =>
    rw [firstDedupAux]
    by_cases hx : x ∈ seen
    · rw [if_pos hx]
      exact ih seen
    · rw [if_neg hx]
      refine List.Pairwise.cons (fun y hy => ?_) (ih (x :: seen))
      have := mem_firstDedupAux.1 hy
      exact fun h => this.2 (h ▸ List.mem_cons_self x seen)

theorem nodup_firstDedup {α : Type} [DecidableEq α] (l : List α) :
    (firstDedup l).Nodup := nodup_firstDedupAux l []

theorem firstDedupAux_congr {α : Type} [DecidableEq α] (l : List α)
    {s s' : List α} (h : ∀ a, a ∈ s ↔ a ∈ s') :
    firstDedupAux s l = firstDedupAux s' l := by
  induction l generalizing s s' with
  | nil => rfl
  | cons x xs ih =>
    rw [firstDedupAux, firstDedupAux]
    by_cases hx : x ∈ s
    · rw [if_pos hx, if_pos ((h x).1 hx)]
      exact ih h
    · rw [if_neg hx, if_neg (fun hx' => hx ((h x).2 hx'))]
      refine congrArg (x :: ·) (ih ?_)
      intro a
      simp only [List.mem_cons, h a]

theorem firstDedupAux_cons_seen {α : Type} [DecidableEq α] (l : List α)
    (z : α) (s : List α) :
    firstDedupAux (z :: s) l =
      firstDedupAux s (l.filter (fun y => !decide (y = z))) := by
  induction l generalizing s with
  | nil => rfl
  | cons x xs ih =>
    rw [firstDedupAux, List.filter_cons]
    by_cases hz : x = z
    · subst hz
      have : x ∈ x :: s := List.mem_cons_self x s
      rw [if_pos this, ih s]
      simp
    · simp only [decide_eq_false hz, Bool.not_false, if_pos]
      rw [firstDedupAux]
      by_cases hx : x ∈ s
      · rw [if_pos (List.mem_cons_of_mem z hx), if_pos hx]
        exact ih s
      · have hxs : x ∉ z :: s := by
          simp only [List.mem_cons, not_or]
          exact ⟨hz, hx⟩
        rw [if_neg hxs, if_neg hx]
        refine congrArg (x :: ·) ?_
        rw [@firstDedupAux_congr _ _ xs (x :: z :: s) (z :: x :: s) (fun a => by
          simp only [List.mem_cons]
          tauto)]
        exact ih (x :: s)

/-- The recursion of `firstDedup` as a Python dict scan: the head is kept and
all its later duplicates are dropped. -/
theorem firstDedup_cons {α : Type} [DecidableEq α] (x : α) (xs : List α) :
    firstDedup (x :: xs) =
      x :: firstDedup (xs.filter (fun y => !decide (y = x))) := by
  rw [firstDedup, firstDedup, firstDedupAux, if_neg (List.not_mem_nil x)]
  exact congrArg (x :: ·) (firstDedupAux_cons_seen xs x [])

/-! ## Helper lemmas: grouping is a partition -/

theorem join_groups_perm {α β : Type} [DecidableEq β] (f : α → β) (l : List α) :
    ((firstDedup (l.map f)).map
      (fun k => l.filter (fun a => decide (f a = k)))).flatten.Perm l := by
  suffices H : ∀ n (l : List α), l.length ≤ n →
      ((firstDedup (l.map f)).map
        (fun k => l.filter (fun a => decide (f a = k)))).flatten.Perm l from
    H l.length l le_rfl
  intro n
  induction n with
  | zero =>
    intro l hl
    rw [List.length_eq_zero.1 (Nat.le_zero.1 hl)]
    simp [firstDedup, firstDedupAux]
  | succ n ih =>
    intro l hl
    match l with
    | [] => simp [firstDedup, firstDedupAux]
    | x :: xs =>
      have hmap : (xs.map f).filter (fun y => !decide (y = f x)) =
          (xs.filter (fun a => !decide (f a = f x))).map f := by
        simpa [Function.comp] using
          List.filter_map (p := fun y => !decide (y = f x)) f xs
      rw [List.map_cons, firstDedup_cons, hmap]
      set xs' := xs.filter (fun a => !decide (f a = f x)) with hxs'
      have hlen : xs'.length ≤ n := by
        have h1 : xs'.length ≤ xs.length := List.length_filter_le _ _
        have h2 : xs.length ≤ n := by
          simpa using Nat.le_of_succ_le_succ (by simpa using hl)
        exact le_trans h1 h2
      -- the head group collects `x` and the matching tail elements
      have hhead : (x :: xs).filter (fun a => decide (f a = f x)) =
          x :: xs.filter (fun a => decide (f a = f x)) := by
        simp [List.filter_cons]
      -- groups of the remaining keys ignore elements with key `f x`
      have hrest : (firstDedup (xs'.map f)).map
            (fun k => (x :: xs).filter (fun a => decide (f a = k))) =
          (firstDedup (xs'.map f)).map
            (fun k => xs'.filter (fun a => decide (f a = k))) := by
        refine List.map_congr_left (fun k hk => ?_)
        have hkmem : k ∈ xs'.map f := mem_firstDedup.1 hk
        have hkne : k ≠ f x := by
          rcases List.mem_map.1 hkmem with ⟨a, ha, rfl⟩
          have := (List.mem_filter.1 ha).2
          simp only [Bool.not_eq_true', decide_eq_false_iff_not] at this
          exact this
        rw [List.filter_cons]
        have hx0 : ¬ (decide (f x = k) = true) := by
          simp only [decide_eq_true_eq]
          exact fun h => hkne h.symm
        rw [if_neg hx0]
        rw [hxs', List.filter_filter]
        refine List.filter_congr (fun a _ => ?_)
        by_cases h : f a = k
        · simp [h, hkne]
        · simp [h]
      rw [List.map_cons, List.flatten_cons, hhead, hrest]
      refine List.Perm.trans ?_
        (List.Perm.cons x (List.filter_append_perm (fun a => decide (f a = f x)) xs))
      rw [List.cons_append]
      refine List.Perm.cons x ?_
      exact List.Perm.append_left _ (ih xs' hlen)

theorem sum_group_counts {α β : Type} [DecidableEq β] (f : α → β) (l : List α) :
    ((firstDedup (l.map f)).map
      (fun k => (l.filter (fun a => decide (f a = k))).length)).sum = l.length := by
  have h := (join_groups_perm f l).length_eq
  rw [List.length_flatten, List.map_map] at h
  simpa [Function.comp] using h

/-! ## Helper lemmas: the stable descending sort -/

theorem insertDesc_perm {α : Type} (key : α → Nat) (e : α) (m : List α) :
    (insertDesc key e m).Perm (e :: m) := by
  induction m with
  | nil => simp [insertDesc]
  | cons x xs ih =>
    rw [insertDesc]
    by_cases h : key e < key x
    · rw [if_pos h]
      exact (ih.cons x).trans (List.Perm.swap e x xs)
    · rw [if_neg h]

theorem sortDescBy_perm {α : Type} (key : α → Nat) (l : List α) :
    (sortDescBy key l).Perm l := by
  induction l with
  | nil => simp [sortDescBy]
  | cons x xs ih =>
    rw [sortDescBy]
    exact (insertDesc_perm key x _).trans (ih.cons x)

theorem pairwise_insertDesc {α : Type} {r : α → α → Prop} (key : α → Nat)
    (e : α) (m : List α)
    (hm : m.Pairwise (fun a b => key b < key a ∨ (key a = key b ∧ r a b)))
    (he : ∀ y ∈ m, r e y) :
    (insertDesc key e m).Pairwise
      (fun a b => key b < key a ∨ (key a = key b ∧ r a b)) := by
  induction m with
  | nil => simp [insertDesc]
  | cons x xs ih =>
    rcases List.pairwise_cons.1 hm with ⟨hx, hxs⟩
    rw [insertDesc]
    by_cases h : key e < key x
    · rw [if_pos h]
      refine List.pairwise_cons.2 ⟨fun y hy => ?_, ?_⟩
      · rcases List.mem_cons.1 ((insertDesc_perm key e xs).mem_iff.1 hy) with rfl | hy'
        · exact Or.inl h
        · exact hx y hy'
      · exact ih hxs (fun y hy => he y (List.mem_cons_of_mem x hy))
    · rw [if_neg h]
      have hxe : key x ≤ key e := Nat.le_of_not_lt h
      refine List.pairwise_cons.2 ⟨fun y hy => ?_, hm⟩
      have hyx : key y ≤ key x := by
        rcases List.mem_cons.1 hy with rfl | hy'
        · exact le_rfl
        · rcases hx y hy' with h1 | h1
          · exact Nat.le_of_lt h1
          · exact Nat.le_of_eq h1.1.symm
      rcases Nat.lt_or_ge (key y) (key e) with h1 | h1
      · exact Or.inl h1
      · have : key e = key y := Nat.le_antisymm h1 (le_trans hyx hxe)
        exact Or.inr ⟨this, he y hy⟩

theorem pairwise_sortDescBy {α : Type} {r : α → α → Prop} (key : α → Nat)
    (l : List α) (hl : l.Pairwise r) :
    (sortDescBy key l).Pairwise
      (fun a b => key b < key a ∨ (key a = key b ∧ r a b)) := by
  induction l with
  | nil => simp [sortDescBy]
  | cons x xs ih =>
    rcases List.pairwise_cons.1 hl with ⟨hx, hxs⟩
    rw [sortDescBy]
    exact pairwise_insertDesc key x _ (ih hxs)
      (fun y hy => hx y ((sortDescBy_perm key xs).mem_iff.1 hy))

theorem pairwise_true {α : Type} (l : List α) : l.Pairwise (fun _ _ => True) := by
  induction l with
  | nil => exact List.Pairwise.nil
  | cons x xs ih => exact List.Pairwise.cons (fun _ _ => trivial) ih

theorem sortDescBy_sorted {α : Type} (key : α → Nat) (l : List α) :
    (sortDescBy key l).Pairwise (fun a b => key b ≤ key a) := by
  refine (pairwise_sortDescBy key l (pairwise_true l)).imp ?_
  rintro a b (h | ⟨h, -⟩)
  · exact Nat.le_of_lt h
  · exact Nat.le_of_eq h.symm

theorem filter_insertDesc {α : Type} (key : α → Nat) (e : α) (m : List α) (t : Nat) :
    (insertDesc key e m).filter (fun a => decide (key a = t)) =
      (if key e = t then [e] else []) ++ m.filter (fun a => decide (key a = t)) := by
  induction m with
  | nil =>
    rw [insertDesc]
    by_cases h : key e = t <;> simp [List.filter_cons, h]
  | cons x xs ih =>
    rw [insertDesc]
    by_cases h : key e < key x
    · rw [if_pos h]
      by_cases hx : key x = t
      · have hne : ¬ key e = t := by omega
        simp [List.filter_cons, hx, hne, ih]
      · simp [List.filter_cons, hx, ih]
    · rw [if_neg h]
      by_cases he : key e = t <;> simp [List.filter_cons, he]

theorem filter_sortDescBy {α : Type} (key : α → Nat) (l : List α) (t : Nat) :
    (sortDescBy key l).filter (fun a => decide (key a = t)) =
      l.filter (fun a => decide (key a = t)) := by
  induction l with
  | nil => rfl
  | cons x xs ih =>
    rw [sortDescBy, filter_insertDesc, ih, List.filter_cons]
    by_cases h : key x = t <;> simp [h]

/-! ## Helper lemmas: the stable ascending sort -/

theorem insertAsc_perm {α : Type} (key : α → Nat) (e : α) (m : List α) :
    (insertAsc key e m).Perm (e :: m) := by
  induction m with
  | nil => simp [insertAsc]
  | cons x xs ih =>
    rw [insertAsc]
    by_cases h : key x < key e
    · rw [if_pos h]
      exact (ih.cons x).trans (List.Perm.swap e x xs)
    · rw [if_neg h]

theorem sortAscBy_perm {α : Type} (key : α → Nat) (l : List α) :
    (sortAscBy key l).Perm l := by
  induction l with
  | nil => simp [sortAscBy]
  | cons x xs ih =>
    rw [sortAscBy]
    exact (insertAsc_perm key x _).trans (ih.cons x)

theorem pairwise_insertAsc {α : Type} {r : α → α → Prop} (key : α → Nat)
    (e : α) (m : List α)
    (hm : m.Pairwise (fun a b => key a < key b ∨ (key a = key b ∧ r a b)))
    (he : ∀ y ∈ m, r e y) :
    (insertAsc key e m).Pairwise
      (fun a b => key a < key b ∨ (key a = key b ∧ r a b)) := by
  induction m with
  | nil => simp [insertAsc]
  | cons x xs ih =>
    rcases List.pairwise_cons.1 hm with ⟨hx, hxs⟩
    rw [insertAsc]
    by_cases h : key x < key e
    · rw [if_pos h]
      refine List.pairwise_cons.2 ⟨fun y hy => ?_, ?_⟩
      · rcases List.mem_cons.1 ((insertAsc_perm key e xs).mem_iff.1 hy) with rfl | hy'
        · exact Or.inl h
        · exact hx y hy'
      · exact ih hxs (fun y hy => he y (List.mem_cons_of_mem x hy))
    · rw [if_neg h]
      have hex : key e ≤ key x := Nat.le_of_not_lt h
      refine List.pairwise_cons.2 ⟨fun y hy => ?_, hm⟩
      have hxy : key x ≤ key y := by
        rcases List.mem_cons.1 hy with rfl | hy'
        · exact le_rfl
        · rcases hx y hy' with h1 | h1
          · exact Nat.le_of_lt h1
          · exact Nat.le_of_eq h1.1
      rcases Nat.lt_or_ge (key e) (key y) with h1 | h1
      · exact Or.inl h1
      · have : key e = key y := Nat.le_antisymm (le_trans hex hxy) h1
        exact Or.inr ⟨this, he y hy⟩

theorem pairwise_sortAscBy {α : Type} {r : α → α → Prop} (key : α → Nat)
    (l : List α) (hl : l.Pairwise r) :
    (sortAscBy key l).Pairwise
      (fun a b => key a < key b ∨ (key a = key b ∧ r a b)) := by
  induction l with
  | nil => simp [sortAscBy]
  | cons x xs ih =>
    rcases List.pairwise_cons.1 hl with ⟨hx, hxs⟩
    rw [sortAscBy]
    exact pairwise_insertAsc key x _ (ih hxs)
      (fun y hy => hx y ((sortAscBy_perm key xs).mem_iff.1 hy))

/-! ## Helper lemmas: `maxTs` -/

theorem foldl_max_perm {l l' : List Nat} (h : l.Perm l') :
    ∀ a : Nat, l.foldl max a = l'.foldl max a := by
  induction h with
  | nil => intro a; rfl
  | cons x _ ih => intro a; simp only [List.foldl_cons]; exact ih _
  | swap x y l =>
    intro a
    simp only [List.foldl_cons]
    rw [sup_right_comm]
  | trans _ _ ih1 ih2 => intro a; rw [ih1, ih2]

theorem foldl_max_of_le {l : List Nat} {a : Nat} (h : ∀ x ∈ l, x ≤ a) :
    l.foldl max a = a := by
  induction l generalizing a with
  | nil => rfl
  | cons x xs ih =>
    simp only [List.foldl_cons]
    have hx : x ≤ a := h x (List.mem_cons_self x xs)
    rw [max_eq_left hx]
    exact ih (fun y hy => h y (List.mem_cons_of_mem x hy))

/-! ## Helper lemmas: Python rounding -/

theorem pyRoundInt_nonneg {x : ℚ} (hx : 0 ≤ x) : 0 ≤ pyRoundInt x := by
  rw [pyRoundInt]
  have hfl : (0 : ℤ) ≤ ⌊x⌋ := Int.floor_nonneg.2 hx
  split
  · split <;> omega
  · rw [round_eq]
    have : (0 : ℚ) ≤ x + 1/2 := by linarith
    have := Int.floor_nonneg.2 this
    omega

theorem pyRoundInt_le {x : ℚ} {n : ℤ} (hx : x ≤ (n : ℚ)) : pyRoundInt x ≤ n := by
  rw [pyRoundInt]
  have hfl : ⌊x⌋ ≤ n := by
    have := Int.floor_le_floor hx
    simpa using this
  split
  · rename_i hhalf
    split
    · exact hfl
    · rcases Int.lt_or_le ⌊x⌋ n with h | h
      · omega
      · exfalso
        have hxn : ⌊x⌋ = n := le_antisymm hfl h
        have : x = (n : ℚ) + 1/2 := by
          have hx2 : x = (⌊x⌋ : ℚ) + 1/2 := by linarith
          rw [hxn] at hx2
          exact hx2
        rw [this] at hx
        linarith
  · rw [round_eq]
    have h1 : x + 1/2 ≤ (n : ℚ) + 1/2 := by linarith
    have h2 : ⌊x + 1/2⌋ ≤ ⌊(n : ℚ) + 1/2⌋ := Int.floor_le_floor h1
    have h3 : ⌊(n : ℚ) + 1/2⌋ = n + ⌊(1 : ℚ)/2⌋ := Int.floor_int_add n (1/2)
    have h4 : ⌊(1 : ℚ)/2⌋ = 0 := by norm_num
    omega

/-! ## Reduction lemmas for the analytics record -/

theorem details_eq (l : List Booking) :
    (computeAnalytics l).fingerprint_details =
      sortDescBy (fun d => d.booking_count) ((fpKeys l).map (mkDetail l)) := rfl

theorem timeline_eq (l : List Booking) :
    (computeAnalytics l).timeline = timelineOf l := rfl

theorem mem_details {l : List Booking} {d : Detail}
    (hd : d ∈ (computeAnalytics l).fingerprint_details) :
    ∃ fp, fp ∈ fpKeys l ∧ d = mkDetail l fp := by
  rw [details_eq] at hd
  have h1 : d ∈ (fpKeys l).map (mkDetail l) :=
    (sortDescBy_perm (fun d => d.booking_count) _).mem_iff.1 hd
  rcases List.mem_map.1 h1 with ⟨fp, hfp, rfl⟩
  exact ⟨fp, hfp, rfl⟩

theorem mem_fpBookings {l : List Booking} {b : Booking} {fp : String} :
    b ∈ fpBookings l fp ↔ (b ∈ l ∧ b.fingerprint = fp) := by
  simp [fpBookings, List.mem_filter]

theorem fpBookings_ne_nil {l : List Booking} {fp : String}
    (hfp : fp ∈ fpKeys l) : fpBookings l fp ≠ [] := by
  have h1 : fp ∈ l.map (fun b => b.fingerprint) := mem_firstDedup.1 hfp
  rcases List.mem_map.1 h1 with ⟨b, hb, rfl⟩
  intro hnil
  have : b ∈ fpBookings l b.fingerprint := mem_fpBookings.2 ⟨hb, rfl⟩
  rw [hnil] at this
  exact List.not_mem_nil b this

/-! ## The claims -/

/-- A demo payload with all four required fields present. -/
def pDemo : Payload := ⟨some "a", some "s", some "d", some "f"⟩

/-- C1: both for every fingerprint group of the analytics report and for the
flag returned by ingest, `is_suspicious` is true iff the count is strictly
greater than 3; a count of exactly 3 is not suspicious. -/
theorem suspicious_iff_count_gt_three (l store : List Booking) (p : Payload)
    (now : Nat) (addr : String) :
    (∀ d ∈ (computeAnalytics l).fingerprint_details,
        ((d.is_suspicious = true ↔ 3 < d.booking_count) ∧
          (d.booking_count = 3 → d.is_suspicious = false))) ∧
    (∀ r : BookResponse, (book_ticket store p now addr).2 = Except.ok r →
        (r.is_suspicious = true ↔ 3 < r.booking_count)) := by
  constructor
  · intro d hd
    rcases mem_details hd with ⟨fp, _, rfl⟩
    constructor
    · simp [mkDetail]
    · intro h
      simp only [mkDetail] at h ⊢
      simp [h]
  · intro r hr
    rcases p with ⟨n0, s0, d0, f0⟩
    rcases n0 with _ | nm <;> rcases s0 with _ | src <;> rcases d0 with _ | dst <;>
      rcases f0 with _ | fp <;> simp [book_ticket] at hr
    subst hr
    simp

/-- C1 witness: the suspicious flags of a concrete group and a concrete
ingest response satisfy the strict-threshold equivalence. -/
theorem suspicious_iff_count_gt_three_witness :
    ((mkDetail demoStore "f").is_suspicious = true ↔
        3 < (mkDetail demoStore "f").booking_count) ∧
    ((⟨1, false⟩ : BookResponse).is_suspicious = true ↔
        3 < (⟨1, false⟩ : BookResponse).booking_count) :=
  ⟨((suspicious_iff_count_gt_three demoStore [] pDemo 0 "i").1
      (mkDetail demoStore "f") (by decide)).1,
    (suspicious_iff_count_gt_three demoStore [] pDemo 0 "i").2
      ⟨1, false⟩ (by rfl)⟩

/-- C2 counterexample: a payload whose `destination` is present but empty is
accepted — no `ValidationError` — and the event is persisted, contradicting
"absent or empty". -/
theorem empty_field_passes_validation :
    (book_ticket [] ⟨some "a", some "s", some "", some "f"⟩ 7 "i").2 ≠
        Except.error BookError.validationError ∧
    (book_ticket [] ⟨some "a", some "s", some "", some "f"⟩ 7 "i").1 =
        [⟨"a", "s", "", "f", 7, "i"⟩] := by
  constructor
  · intro h
    simp [book_ticket] at h
  · rfl

/-- C2 (amended): ingest fails with a `ValidationError` iff one of the four
required fields is absent from the payload (an empty-but-present value passes
validation), and on such a failure the store is unchanged. -/
theorem validation_iff_missing_field (store : List Booking) (p : Payload)
    (now : Nat) (addr : String) :
    ((book_ticket store p now addr).2 = Except.error BookError.validationError ↔
      (p.name = none ∨ p.source = none ∨ p.destination = none ∨
        p.fingerprint = none)) ∧
    ((book_ticket store p now addr).2 = Except.error BookError.validationError →
      (book_ticket store p now addr).1 = store) := by
  rcases p with ⟨n0, s0, d0, f0⟩
  rcases n0 with _ | nm <;> rcases s0 with _ | src <;> rcases d0 with _ | dst <;>
    rcases f0 with _ | fp <;> simp [book_ticket]

/-- C2 witness: a concrete payload missing `destination` is rejected with a
`ValidationError` and the store is left unchanged. -/
theorem validation_iff_missing_field_witness :
    (book_ticket demoStore ⟨some "a", some "s", none, some "f"⟩ 0 "i").2 =
        Except.error BookError.validationError ∧
    (book_ticket demoStore ⟨some "a", some "s", none, some "f"⟩ 0 "i").1 =
        demoStore := by
  have h := validation_iff_missing_field demoStore
    ⟨some "a", some "s", none, some "f"⟩ 0 "i"
  have herr := h.1.2 (Or.inr (Or.inr (Or.inl rfl)))
  exact ⟨herr, h.2 herr⟩

/-- C3: grouping by exact fingerprint equality is a partition — the keys are
distinct, every event's fingerprint is a key, a group holds exactly the events
with its fingerprint, the concatenation of all groups is a permutation of the
input (nothing dropped or duplicated), and `totalBookings` equals both the
input size and the sum of the group counts. -/
theorem grouping_partition (l : List Booking) :
    (fpKeys l).Nodup ∧
    (∀ b ∈ l, b.fingerprint ∈ fpKeys l) ∧
    (∀ b : Booking, ∀ fp : String,
        (b ∈ fpBookings l fp ↔ (b ∈ l ∧ b.fingerprint = fp))) ∧
    ((fpKeys l).map (fpBookings l)).flatten.Perm l ∧
    ((fpKeys l).map (fpCount l)).sum = l.length ∧
    (computeAnalytics l).summary.total_bookings = l.length := by
  refine ⟨nodup_firstDedup _, ?_, ?_, ?_, ?_, rfl⟩
  · intro b hb
    exact mem_firstDedup.2 (List.mem_map_of_mem _ hb)
  · intro b fp
    exact mem_fpBookings
  · exact join_groups_perm (fun b => b.fingerprint) l
  · exact sum_group_counts (fun b => b.fingerprint) l

/-- C3 witness: on a concrete store, a concrete event's fingerprint is a key
and lies in exactly its own group. -/
theorem grouping_partition_witness :
    b1.fingerprint ∈ fpKeys demoStore ∧
    (b1 ∈ fpBookings demoStore "f" ↔ (b1 ∈ demoStore ∧ b1.fingerprint = "f")) :=
  ⟨(grouping_partition demoStore).2.1 b1 (by simp [demoStore]),
    (grouping_partition demoStore).2.2.1 b1 "f"⟩

/-- C5: a successful ingest appends exactly one event to the store and
returns the post-insert count of stored events with the ingested fingerprint,
which includes the new event and hence is at least 1.  (The Mongo-generated
booking id of the response is store-assigned and not modelled.) -/
theorem ingest_appends_and_counts (store : List Booking) (p : Payload)
    (now : Nat) (addr : String) (s' : List Booking) (r : BookResponse)
    (h : book_ticket store p now addr = (s', Except.ok r)) :
    ∃ ev : Booking, s' = store ++ [ev] ∧ p.fingerprint = some ev.fingerprint ∧
      r.booking_count = fpCount s' ev.fingerprint ∧ 1 ≤ r.booking_count := by
  rcases p with ⟨n0, s0, d0, f0⟩
  rcases n0 with _ | nm <;> rcases s0 with _ | src <;> rcases d0 with _ | dst <;>
    rcases f0 with _ | fp <;> simp [book_ticket, Prod.ext_iff] at h
  obtain ⟨hs, hr⟩ := h
  subst hs
  subst hr
  refine ⟨⟨nm, src, dst, fp, now, addr⟩, rfl, rfl, ?_, ?_⟩
  · simp [fpCount, List.filter_append]
  · simp

/-- C5 witness: ingesting a concrete valid payload into the empty store
appends one event and reports a post-insert count of 1. -/
theorem ingest_appends_and_counts_witness :
    ∃ ev : Booking, ([⟨"a", "s", "d", "f", 7, "i"⟩] : List Booking) = [] ++ [ev] ∧
      pDemo.fingerprint = some ev.fingerprint ∧
      (⟨1, false⟩ : BookResponse).booking_count =
        fpCount [⟨"a", "s", "d", "f", 7, "i"⟩] ev.fingerprint ∧
      1 ≤ (⟨1, false⟩ : BookResponse).booking_count :=
  ingest_appends_and_counts [] pDemo 7 "i" [⟨"a", "s", "d", "f", 7, "i"⟩]
    ⟨1, false⟩ (by rfl)

/-- C9: reset unconditionally empties the store, and the analytics of the
empty store are all zero / empty. -/
theorem reset_empties_analytics (store : List Booking) :
    clear_data store = [] ∧
    (computeAnalytics (clear_data store)).summary.total_bookings = 0 ∧
    (computeAnalytics (clear_data store)).summary.unique_fingerprints = 0 ∧
    (computeAnalytics (clear_data store)).fingerprint_details = [] ∧
    (computeAnalytics (clear_data store)).timeline = [] ∧
    (computeAnalytics (clear_data store)).summary.fraud_rate = 0 :=
  ⟨rfl, rfl, rfl, rfl, rfl, rfl⟩

/-! ## Helper: sum over a filtered list -/

theorem sum_filter_le {α : Type} (p : α → Bool) (g : α → Nat) (l : List α) :
    ((l.filter p).map g).sum ≤ (l.map g).sum := by
  induction l with
  | nil => simp
  | cons x xs ih =>
    rw [List.filter_cons]
    by_cases h : p x = true
    · rw [if_pos h]
      simp only [List.map_cons, List.sum_cons]
      omega
    · rw [if_neg h]
      simp only [List.map_cons, List.sum_cons]
      omega

/-- C4: `suspiciousBookings ≤ totalBookings`; the fraud rate is the rounded
percentage `suspiciousBookings / totalBookings * 100` when there are bookings
and `0` otherwise (no division by zero), and it always lies in `[0, 100]`. -/
theorem fraud_rate_bounds (l : List Booking) :
    (computeAnalytics l).summary.suspicious_bookings ≤
      (computeAnalytics l).summary.total_bookings ∧
    (computeAnalytics l).summary.fraud_rate =
      (if 0 < (computeAnalytics l).summary.total_bookings then
        pyRound2 (((computeAnalytics l).summary.suspicious_bookings : ℚ) /
          ((computeAnalytics l).summary.total_bookings : ℚ) * 100)
      else 0) ∧
    0 ≤ (computeAnalytics l).summary.fraud_rate ∧
    (computeAnalytics l).summary.fraud_rate ≤ 100 := by
  have hsb : (computeAnalytics l).summary.suspicious_bookings =
      (((fpKeys l).filter (fun fp => decide (fpCount l fp > 3))).map
        (fpCount l)).sum := rfl
  have htb : (computeAnalytics l).summary.total_bookings = l.length := rfl
  have hle : (computeAnalytics l).summary.suspicious_bookings ≤
      (computeAnalytics l).summary.total_bookings := by
    rw [hsb, htb]
    calc (((fpKeys l).filter (fun fp => decide (fpCount l fp > 3))).map
            (fpCount l)).sum
        ≤ ((fpKeys l).map (fpCount l)).sum :=
          sum_filter_le (fun fp => decide (fpCount l fp > 3)) (fpCount l) _
      _ = l.length := sum_group_counts (fun b => b.fingerprint) l
  have hfr : (computeAnalytics l).summary.fraud_rate =
      (if 0 < l.length then
        pyRound2 (((computeAnalytics l).summary.suspicious_bookings : ℚ) /
          (l.length : ℚ) * 100)
      else 0) := rfl
  have hboth : 0 ≤ (computeAnalytics l).summary.fraud_rate ∧
      (computeAnalytics l).summary.fraud_rate ≤ 100 := by
    rw [hfr]
    by_cases h : 0 < l.length
    · rw [if_pos h]
      have htbpos : (0 : ℚ) < (l.length : ℚ) := by exact_mod_cast h
      have hsbtb : ((computeAnalytics l).summary.suspicious_bookings : ℚ) ≤
          (l.length : ℚ) := by
        have := hle
        rw [htb] at this
        exact_mod_cast this
      have hx0 : (0 : ℚ) ≤
          ((computeAnalytics l).summary.suspicious_bookings : ℚ) /
            (l.length : ℚ) * 100 := by positivity
      have hx100 : ((computeAnalytics l).summary.suspicious_bookings : ℚ) /
          (l.length : ℚ) * 100 ≤ 100 := by
        have h1 : ((computeAnalytics l).summary.suspicious_bookings : ℚ) /
            (l.length : ℚ) ≤ 1 := (div_le_one htbpos).2 hsbtb
        linarith
      rw [pyRound2]
      have h2 : (0 : ℤ) ≤ pyRoundInt
          (((computeAnalytics l).summary.suspicious_bookings : ℚ) /
            (l.length : ℚ) * 100 * 100) :=
        pyRoundInt_nonneg (by positivity)
      have h3 : pyRoundInt
          (((computeAnalytics l).summary.suspicious_bookings : ℚ) /
            (l.length : ℚ) * 100 * 100) ≤ (10000 : ℤ) := by
        apply pyRoundInt_le
        push_cast
        linarith
      have h2' : (0 : ℚ) ≤ (pyRoundInt
          (((computeAnalytics l).summary.suspicious_bookings : ℚ) /
            (l.length : ℚ) * 100 * 100) : ℚ) := by exact_mod_cast h2
      have h3' : (pyRoundInt
          (((computeAnalytics l).summary.suspicious_bookings : ℚ) /
            (l.length : ℚ) * 100 * 100) : ℚ) ≤ 10000 := by exact_mod_cast h3
      constructor
      · exact div_nonneg h2' (by norm_num)
      · rw [div_le_iff₀ (by norm_num : (0:ℚ) < 100)]
        linarith
    · rw [if_neg h]
      norm_num
  exact ⟨hle, rfl, hboth.1, hboth.2⟩

/-- C6: every group's history is exactly the group's events projected to
history entries, sorted by timestamp descending, with equal-timestamp entries
kept in their original insertion order. -/
theorem history_sorted_stable (l : List Booking) (d : Detail)
    (hd : d ∈ (computeAnalytics l).fingerprint_details) :
    d.bookings.Perm ((fpBookings l d.full_fingerprint).map toHist) ∧
    d.bookings.Pairwise (fun a b => b.timestamp ≤ a.timestamp) ∧
    (∀ t : Nat, d.bookings.filter (fun e => decide (e.timestamp = t)) =
      ((fpBookings l d.full_fingerprint).filter
        (fun b => decide (b.timestamp = t))).map toHist) := by
  rcases mem_details hd with ⟨fp, _, rfl⟩
  refine ⟨?_, ?_, ?_⟩
  · exact (sortDescBy_perm (fun b => b.timestamp) (fpBookings l fp)).map toHist
  · show ((sortDescBy (fun b => b.timestamp) (fpBookings l fp)).map
        toHist).Pairwise (fun a b => b.timestamp ≤ a.timestamp)
    rw [List.pairwise_map]
    exact (sortDescBy_sorted (fun b => b.timestamp) (fpBookings l fp)).imp
      (fun h => h)
  · intro t
    show ((sortDescBy (fun b => b.timestamp) (fpBookings l fp)).map
        toHist).filter (fun e => decide (e.timestamp = t)) = _
    rw [List.filter_map]
    refine congrArg (List.map toHist) ?_
    exact filter_sortDescBy (fun b => b.timestamp) (fpBookings l fp) t

/-- C6 witness: the history of the concrete group `"f"` of the demo store is
a sorted, stable permutation of the group. -/
theorem history_sorted_stable_witness :
    (mkDetail demoStore "f").bookings.Perm
        ((fpBookings demoStore (mkDetail demoStore "f").full_fingerprint).map
          toHist) ∧
    (mkDetail demoStore "f").bookings.Pairwise
        (fun a b => b.timestamp ≤ a.timestamp) ∧
    (∀ t : Nat, (mkDetail demoStore "f").bookings.filter
          (fun e => decide (e.timestamp = t)) =
        ((fpBookings demoStore (mkDetail demoStore "f").full_fingerprint).filter
          (fun b => decide (b.timestamp = t))).map toHist) :=
  history_sorted_stable demoStore (mkDetail demoStore "f") (by decide)

/-- C8: the detail list is sorted by count descending, and groups with equal
counts keep their grouping-discovery (first-occurrence) order. -/
theorem details_sorted_by_count (l : List Booking) :
    (computeAnalytics l).fingerprint_details.Pairwise
      (fun a b => b.booking_count ≤ a.booking_count) ∧
    (∀ c : Nat, (computeAnalytics l).fingerprint_details.filter
        (fun d : Detail => decide (d.booking_count = c)) =
      ((fpKeys l).map (mkDetail l)).filter
        (fun d : Detail => decide (d.booking_count = c))) := by
  rw [details_eq]
  exact ⟨sortDescBy_sorted (fun d : Detail => d.booking_count) _,
    fun c => filter_sortDescBy (fun d : Detail => d.booking_count) _ c⟩

/-- C10: every detail record is internally consistent — its count is the
length of its history, its last activity is the timestamp of the history's
first (newest) entry, and its name and route lists are duplicate-free. -/
theorem detail_internal_consistency (l : List Booking) (d : Detail)
    (hd : d ∈ (computeAnalytics l).fingerprint_details) :
    d.booking_count = d.bookings.length ∧
    (∃ h0 t0, d.bookings = h0 :: t0 ∧ d.last_booking = h0.timestamp) ∧
    d.names_used.Nodup ∧ d.routes.Nodup := by
  rcases mem_details hd with ⟨fp, hfp, rfl⟩
  refine ⟨?_, ?_, nodup_firstDedup _, nodup_firstDedup _⟩
  · show fpCount l fp =
      ((sortDescBy (fun b => b.timestamp) (fpBookings l fp)).map toHist).length
    rw [List.length_map,
      (sortDescBy_perm (fun b => b.timestamp) (fpBookings l fp)).length_eq]
    rfl
  · have hne : fpBookings l fp ≠ [] := fpBookings_ne_nil hfp
    obtain ⟨h0, t0, hst⟩ : ∃ h0 t0,
        sortDescBy (fun b => b.timestamp) (fpBookings l fp) = h0 :: t0 := by
      cases hs : sortDescBy (fun b => b.timestamp) (fpBookings l fp) with
      | nil =>
        exfalso
        have hlen :=
          (sortDescBy_perm (fun b => b.timestamp) (fpBookings l fp)).length_eq
        rw [hs] at hlen
        exact hne (List.length_eq_zero.1 hlen.symm)
      | cons h0 t0 => exact ⟨h0, t0, rfl⟩
    refine ⟨toHist h0, t0.map toHist, ?_, ?_⟩
    · show (sortDescBy (fun b => b.timestamp) (fpBookings l fp)).map toHist = _
      rw [hst]
      rfl
    · show maxTs ((fpBookings l fp).map (fun b => b.timestamp)) =
        (toHist h0).timestamp
      have hperm : ((fpBookings l fp).map (fun b => b.timestamp)).Perm
          ((sortDescBy (fun b => b.timestamp) (fpBookings l fp)).map
            (fun b => b.timestamp)) :=
        ((sortDescBy_perm (fun b => b.timestamp) (fpBookings l fp)).map
          (fun b => b.timestamp)).symm
      rw [maxTs, foldl_max_perm hperm 0, hst, List.map_cons, List.foldl_cons]
      have hall : ∀ x ∈ t0.map (fun b => b.timestamp), x ≤ h0.timestamp := by
        intro x hx
        rcases List.mem_map.1 hx with ⟨b, hb, rfl⟩
        have hpw := sortDescBy_sorted (fun b => b.timestamp) (fpBookings l fp)
        rw [hst] at hpw
        exact (List.pairwise_cons.1 hpw).1 b hb
      have h0max : max 0 h0.timestamp = h0.timestamp := by simp
      rw [h0max]
      exact foldl_max_of_le hall

/-- C10 witness: the concrete detail record of fingerprint `"g"` of the demo
store is internally consistent. -/
theorem detail_internal_consistency_witness :
    (mkDetail demoStore "g").booking_count =
        (mkDetail demoStore "g").bookings.length ∧
    (∃ h0 t0, (mkDetail demoStore "g").bookings = h0 :: t0 ∧
        (mkDetail demoStore "g").last_booking = h0.timestamp) ∧
    (mkDetail demoStore "g").names_used.Nodup ∧
    (mkDetail demoStore "g").routes.Nodup :=
  detail_internal_consistency demoStore (mkDetail demoStore "g") (by decide)

/-! ## Helper lemmas: the timeline -/

theorem tlSorted_strict (l : List Booking) :
    (tlSorted l).Pairwise (fun p q => p.time < q.time) := by
  have hnd : (firstDedup (l.map hourOf)).Nodup := nodup_firstDedup _
  have hp : (tlPts l).Pairwise (fun p q => p.time ≠ q.time) := by
    rw [tlPts, List.pairwise_map]
    exact hnd.imp (fun h => h)
  have hlex := pairwise_sortAscBy (fun p => p.time) (tlPts l) hp
  exact hlex.imp (fun h => h.elim id (fun h2 => absurd h2.1 h2.2))

theorem mem_tlPts {l : List Booking} {p : TimelinePoint} :
    p ∈ tlPts l ↔ (p.time ∈ firstDedup (l.map hourOf) ∧
      p.count = (l.filter (fun b => decide (hourOf b = p.time))).length) := by
  rw [tlPts]
  constructor
  · intro hp
    rcases List.mem_map.1 hp with ⟨h, hh, rfl⟩
    exact ⟨hh, rfl⟩
  · rintro ⟨hh, hc⟩
    have hpmk : p = TimelinePoint.mk p.time
        (l.filter (fun b => decide (hourOf b = p.time))).length := by
      cases p
      simp only [TimelinePoint.mk.injEq, true_and]
      simpa using hc
    rw [hpmk]
    exact List.mem_map_of_mem _ hh

/-- C7: the timeline buckets every event by its timestamp truncated to the
hour, lists buckets in strictly ascending chronological order, has at most 24
entries — exactly the most recent 24 distinct non-empty hour buckets when
more exist (every event hour missing from the timeline is older than every
timeline bucket) — and each bucket carries the count of its events. -/
theorem timeline_buckets (l : List Booking) :
    (computeAnalytics l).timeline.Pairwise (fun p q => p.time < q.time) ∧
    (computeAnalytics l).timeline.length ≤ 24 ∧
    (computeAnalytics l).timeline.length =
      min (firstDedup (l.map hourOf)).length 24 ∧
    (∀ p ∈ (computeAnalytics l).timeline,
        p.count = (l.filter (fun b => decide (hourOf b = p.time))).length ∧
        p.time ∈ l.map hourOf) ∧
    (∀ b ∈ l, ∀ p ∈ (computeAnalytics l).timeline,
        hourOf b ∈ (computeAnalytics l).timeline.map (fun q => q.time) ∨
          hourOf b < p.time) := by
  have htl : (computeAnalytics l).timeline =
      (tlSorted l).drop ((tlSorted l).length - 24) := rfl
  have hstrict := tlSorted_strict l
  have hlen : (tlSorted l).length = (firstDedup (l.map hourOf)).length := by
    rw [tlSorted, (sortAscBy_perm (fun p => p.time) (tlPts l)).length_eq, tlPts,
      List.length_map]
  refine ⟨?_, ?_, ?_, ?_, ?_⟩
  · rw [htl]
    exact hstrict.sublist (List.drop_sublist _ _)
  · rw [htl, List.length_drop]
    omega
  · rw [htl, List.length_drop, hlen]
    omega
  · intro p hp
    rw [htl] at hp
    have hp1 : p ∈ tlSorted l := List.mem_of_mem_drop hp
    have hp2 : p ∈ tlPts l :=
      (sortAscBy_perm (fun p : TimelinePoint => p.time) (tlPts l)).mem_iff.1 hp1
    rcases mem_tlPts.1 hp2 with ⟨hh, hc⟩
    exact ⟨hc, mem_firstDedup.1 hh⟩
  · intro b hb p hp
    have hh : hourOf b ∈ firstDedup (l.map hourOf) :=
      mem_firstDedup.2 (List.mem_map_of_mem hourOf hb)
    have hq1 : TimelinePoint.mk (hourOf b)
        (l.filter (fun e => decide (hourOf e = hourOf b))).length ∈ tlPts l := by
      rw [tlPts]
      exact List.mem_map_of_mem _ hh
    have hq2 : TimelinePoint.mk (hourOf b)
        (l.filter (fun e => decide (hourOf e = hourOf b))).length ∈ tlSorted l :=
      (sortAscBy_perm (fun p : TimelinePoint => p.time) (tlPts l)).mem_iff.2 hq1
    have hsplit := List.take_append_drop ((tlSorted l).length - 24) (tlSorted l)
    rw [← hsplit] at hq2
    rcases List.mem_append.1 hq2 with hqt | hqd
    · right
      have hstrict' := hstrict
      rw [← hsplit] at hstrict'
      rcases List.pairwise_append.1 hstrict' with ⟨-, -, hcross⟩
      have hp' : p ∈ (tlSorted l).drop ((tlSorted l).length - 24) := by
        rw [htl] at hp
        exact hp
      exact hcross _ hqt p hp'
    · left
      rw [htl]
      exact List.mem_map_of_mem (fun r => r.time) hqd

/-- C7 witness: the concrete bucket of hour 0 of the demo store carries the
count of its four events and is a real event hour. -/
theorem timeline_buckets_witness :
    (⟨0, 4⟩ : TimelinePoint).count =
        (demoStore.filter (fun b =>
          decide (hourOf b = (⟨0, 4⟩ : TimelinePoint).time))).length ∧
    (⟨0, 4⟩ : TimelinePoint).time ∈ demoStore.map hourOf :=
  (timeline_buckets demoStore).2.2.2.1 ⟨0, 4⟩ (by decide)
